import Mathlib

/-!
Shallow embedding of the AGiXT Rust SDK client (`src/agixt-sdk/src/`) and
proofs about its observable behaviour.

The HTTP transport is not modelled: every method receives the response it
would have read from the wire (numeric status, raw body text, and the result
of `serde_json::from_str` on that body, as an `Option Json` oracle).  All
state (the shared header map) is passed explicitly.
-/

/-- JSON values, the shallow embedding of `serde_json::Value`.  Objects keep
their fields as an ordered association list. -/
inductive Json where
  | null
  | bool (b : Bool)
  | num (n : Int)
  | str (s : String)
  | arr (elems : List Json)
  | obj (fields : List (String × Json))

/-- Field lookup on a JSON object, embedding `serde_json::Value::get`:
`none` on non-objects and on missing keys. -/
def Json.getField : Json → String → Option Json
  | .obj fields, key => (fields.find? (fun p => p.1 == key)).map (fun p => p.2)
  | _, _ => none

/-- Embeds `Value::as_str`. -/
def Json.asStr : Json → Option String
  | .str s => some s
  | _ => none

/-- Embeds `Value::as_bool`. -/
def Json.asBool : Json → Option Bool
  | .bool b => some b
  | _ => none

/-- Embeds `Value::as_array`. -/
def Json.asArr : Json → Option (List Json)
  | .arr elems => some elems
  | _ => none

/-- True exactly on JSON objects (`Value::is_object`). -/
def Json.isObj : Json → Bool
  | .obj _ => true
  | _ => false

/-- The SDK error enum from `src/error.rs`.  `RequestError` carries no
reqwest payload in the embedding; `JsonError` stands for
`Error::JsonError(serde_json::Error)`. -/
inductive Error where
  | RequestError (msg : String)
  | JsonError (msg : String)
  | ApiError (status : Nat) (message : String)
  | AuthError (msg : String)
  | InvalidInput (msg : String)
  | NotFound (msg : String)
  | Other (msg : String)
  deriving DecidableEq

/-- Embeds `reqwest::StatusCode::is_success` (2xx). -/
def isSuccessStatus (status : Nat) : Bool :=
  decide (200 ≤ status ∧ status < 300)

/-- Embeds `AGiXTSDK::parse_response` from `client/mod.rs`: on a success
status it only logs (modelled as a no-op), on any other status it returns
`Error::ApiError` carrying the numeric status and the raw body text. -/
def parse_response (status : Nat) (body : String) : Except Error Unit :=
  if isSuccessStatus status then .ok () else .error (.ApiError status body)

/-- The request/response tail shared verbatim by every JSON endpoint method
of the client: run `parse_response` when (and only when) the client's
`verbose` flag is set, then hand the `serde_json::from_str` result of the
body (`decoded`; `none` models a parse failure) to the endpoint-specific
unwrapping step. -/
def endpointCall {α : Type} (verbose : Bool) (status : Nat) (body : String)
    (decoded : Option Json) (unwrap : Json → Except Error α) : Except Error α := do
  if verbose then
    parse_response status body
  match decoded with
  | none => throw (.JsonError "invalid JSON")
  | some j => unwrap j

/-- Embeds `AGiXTSDK::get_user`: the parsed body is returned as-is. -/
def get_user (verbose : Bool) (status : Nat) (body : String)
    (decoded : Option Json) : Except Error Json :=
  endpointCall verbose status body decoded (fun j => .ok j)

/-- Embeds `AGiXTSDK::user_exists`: `Ok(json.as_bool().unwrap_or(false))`. -/
def user_exists (verbose : Bool) (status : Nat) (body : String)
    (decoded : Option Json) : Except Error Bool :=
  endpointCall verbose status body decoded (fun j => .ok (j.asBool.getD false))

/-- Embeds `AGiXTSDK::get_chains`: the body as an array, else `vec![]`. -/
def get_chains (verbose : Bool) (status : Nat) (body : String)
    (decoded : Option Json) : Except Error (List Json) :=
  endpointCall verbose status body decoded (fun j => .ok (j.asArr.getD []))

/-- Embeds the body-unwrapping step of `AGiXTSDK::get_conversations`
(`client/conversations.rs`): an array is returned as-is; an object is probed
for a `conversations` array field; anything else falls back to `vec![]`. -/
def conversationsUnwrap (j : Json) : List Json :=
  match j.asArr with
  | some elems => elems
  | none => ((j.getField "conversations").bind Json.asArr).getD []

/-- Embeds `AGiXTSDK::get_conversations`. -/
def get_conversations (verbose : Bool) (status : Nat) (body : String)
    (decoded : Option Json) : Except Error (List Json) :=
  endpointCall verbose status body decoded (fun j => .ok (conversationsUnwrap j))

/-- Embeds `AGiXTSDK::get_agents`: serde-deserializes the envelope
`AgentsResponse .. agents: Vec<HashMap<String, Value>>`, so the `agents`
field must be present, an array, and every element an object. -/
def get_agents (verbose : Bool) (status : Nat) (body : String)
    (decoded : Option Json) : Except Error (List Json) :=
  endpointCall verbose status body decoded (fun j =>
    match (j.getField "agents").bind Json.asArr with
    | none => .error (.JsonError "missing field agents")
    | some elems =>
        if elems.all Json.isObj then .ok elems
        else .error (.JsonError "agent entry is not an object"))

/-- Embeds `AGiXTSDK::get_prompts`: serde-deserializes the envelope
`PromptsResponse .. prompts: Vec<Value>`. -/
def get_prompts (verbose : Bool) (status : Nat) (body : String)
    (decoded : Option Json) : Except Error (List Json) :=
  endpointCall verbose status body decoded (fun j =>
    match (j.getField "prompts").bind Json.asArr with
    | none => .error (.JsonError "missing field prompts")
    | some elems => .ok elems)

/-- Embeds `AGiXTSDK::import_chain`'s unwrapping of the envelope
`MessageResponse .. message: String` (the same struct appears in many
methods of `client/mod.rs` and `client/conversations.rs`). -/
def messageUnwrap (j : Json) : Except Error String :=
  match (j.getField "message").bind Json.asStr with
  | none => .error (.JsonError "missing field message")
  | some m => .ok m

/-- Embeds `AGiXTSDK::import_chain`. -/
def import_chain (verbose : Bool) (status : Nat) (body : String)
    (decoded : Option Json) : Except Error String :=
  endpointCall verbose status body decoded messageUnwrap

/-- The linear scan shared by `get_chain_id_by_name`, `get_agent_id_by_name`
and `get_prompt_id_by_name`: first element whose `name` field is a string
equal to the query wins; its `id` field (as a string, if any) is returned
and the scan stops. -/
def lookupIdByName : List Json → String → Option String
  | [], _ => none
  | c :: rest, n =>
    match (c.getField "name").bind Json.asStr with
    | some name => if name = n then (c.getField "id").bind Json.asStr
                   else lookupIdByName rest n
    | none => lookupIdByName rest n

/-- Embeds `AGiXTSDK::get_chain_id_by_name`: list chains, linear scan. -/
def get_chain_id_by_name (verbose : Bool) (status : Nat) (body : String)
    (decoded : Option Json) (chain_name : String) : Except Error (Option String) := do
  let chains ← get_chains verbose status body decoded
  pure (lookupIdByName chains chain_name)

/-- Embeds `AGiXTSDK::get_agent_id_by_name` (`client/agents.rs`). -/
def get_agent_id_by_name (verbose : Bool) (status : Nat) (body : String)
    (decoded : Option Json) (agent_name : String) : Except Error (Option String) := do
  let agents ← get_agents verbose status body decoded
  pure (lookupIdByName agents agent_name)

/-- Embeds `AGiXTSDK::get_prompt_id_by_name`. -/
def get_prompt_id_by_name (verbose : Bool) (status : Nat) (body : String)
    (decoded : Option Json) (prompt_name : String) : Except Error (Option String) := do
  let prompts ← get_prompts verbose status body decoded
  pure (lookupIdByName prompts prompt_name)

/-- Embeds the listing normalization of `get_conversations_with_ids`: an
array as-is, else the `conversations_with_ids` or `conversations` field of
an object, else `vec![]`. -/
def conversationsWithIdsListing (j : Json) : List Json :=
  match j.asArr with
  | some elems => elems
  | none =>
      (((j.getField "conversations_with_ids").orElse
          (fun _ => j.getField "conversations")).bind Json.asArr).getD []

/-- Embeds the map-building loop of `get_conversations_with_ids`: each
object element becomes a pair of its string `id` and `name` fields (absent
entries stay absent, mirroring the `HashMap` that only receives string
values); non-object elements are skipped. -/
def conversationsWithIdsMaps (elems : List Json) : List (Option String × Option String) :=
  elems.filterMap (fun conv =>
    match conv with
    | .obj _ => some ((conv.getField "id").bind Json.asStr,
                      (conv.getField "name").bind Json.asStr)
    | _ => none)

/-- Embeds `AGiXTSDK::get_conversations_with_ids`. -/
def get_conversations_with_ids (verbose : Bool) (status : Nat) (body : String)
    (decoded : Option Json) : Except Error (List (Option String × Option String)) :=
  endpointCall verbose status body decoded
    (fun j => .ok (conversationsWithIdsMaps (conversationsWithIdsListing j)))

/-- Embeds the scan of `get_conversation_id_by_name` over the id/name maps:
first map whose `name` entry equals the query wins and its `id` entry (an
`Option`) is returned. -/
def lookupConvId : List (Option String × Option String) → String → Option String
  | [], _ => none
  | (i, nm) :: rest, n =>
    match nm with
    | some name => if name = n then i else lookupConvId rest n
    | none => lookupConvId rest n

/-- Embeds `AGiXTSDK::get_conversation_id_by_name`. -/
def get_conversation_id_by_name (verbose : Bool) (status : Nat) (body : String)
    (decoded : Option Json) (conversation_name : String) : Except Error (Option String) := do
  let convs ← get_conversations_with_ids verbose status body decoded
  pure (lookupConvId convs conversation_name)

/-- A single byte-wise validity test of `http::HeaderValue::from_str`,
expressed per character: a character is allowed when every byte of its
UTF-8 encoding `b` satisfies `b = 9 ∨ (32 ≤ b ∧ b ≠ 127)`.  Characters
with code points at least 128 encode to bytes that are all at least 128,
hence always allowed, so the byte test coincides with this character
test. -/
def validHeaderChar (c : Char) : Bool :=
  c.toNat == 9 || (decide (32 ≤ c.toNat) && c.toNat != 127)

/-- Whether `HeaderValue::from_str` succeeds on the string. -/
def isValidHeaderValue (s : String) : Bool :=
  s.toList.all validHeaderChar

/-- Fuelled removal of every non-overlapping occurrence of `pat`
(leftmost first), the semantics of Rust's `str::replace(pat, "")` for a
non-empty pattern.  The fuel only serves to make the recursion structural;
`removeAll` instantiates it with the length of the string. -/
def removeAllFuel (pat : List Char) : Nat → List Char → List Char
  | 0, s => s
  | _ + 1, [] => []
  | fuel + 1, c :: rest =>
    if pat ≠ [] ∧ pat.isPrefixOf (c :: rest) then
      removeAllFuel pat fuel (List.drop pat.length (c :: rest))
    else
      c :: removeAllFuel pat fuel rest

/-- Remove every occurrence of `pat` from `s`; embeds `s.replace(pat, "")`. -/
def removeAll (pat s : List Char) : List Char :=
  removeAllFuel pat s.length s

/-- Embeds the credential normalization in `AGiXTSDK::new`:
`key.replace("Bearer ", "").replace("bearer ", "")`. -/
def normalizeApiKey (key : String) : String :=
  String.mk (removeAll "bearer ".toList (removeAll "Bearer ".toList key.toList))

/-- Whether `pat` occurs as a contiguous sublist of `s`; the semantics of
Rust's `str::contains` for string patterns. -/
def occursB (pat : List Char) : List Char → Bool
  | [] => pat.isEmpty
  | c :: rest => pat.isPrefixOf (c :: rest) || occursB pat rest

/-- Embeds `base_uri.trim_end_matches('/')`: drop every trailing slash. -/
def trimTrailingSlashes (s : String) : String :=
  String.mk ((s.toList.reverse.dropWhile (fun c => c == '/')).reverse)

/-- Whether a string ends in a slash (the property §8 of the spec denies
of every stored base URI). -/
def endsWithSlash (s : String) : Bool :=
  s.toList.getLast? == some '/'

/-- Insert a header, replacing any existing value for the same name;
the semantics of `reqwest::header::HeaderMap::insert`. -/
def insertHeader (headers : List (String × String)) (k v : String) :
    List (String × String) :=
  if headers.any (fun p => p.1 == k) then
    headers.map (fun p => if p.1 == k then (k, v) else p)
  else
    headers ++ [(k, v)]

/-- Read a header value by name. -/
def getHeader (headers : List (String × String)) (k : String) : Option String :=
  ((headers.find? (fun p => p.1 == k))).map (fun p => p.2)

/-- The client state from `client/mod.rs` (the reqwest transport handle is
not modelled; the header map is the mutex-guarded `HeaderMap`). -/
structure AGiXTSDK where
  base_uri : String
  headers : List (String × String)
  verbose : Bool
  deriving DecidableEq

/-- Embeds `AGiXTSDK::new`: install the content-type header; normalize the
optional credential and install it as the authorization header only when it
is a valid header value (`HeaderValue::from_str` failures are silently
ignored); default and trim the base URI. -/
def AGiXTSDK.new (base_uri : Option String) (api_key : Option String)
    (verbose : Bool) : AGiXTSDK :=
  let headers := insertHeader [] "content-type" "application/json"
  let headers :=
    match api_key with
    | some key =>
        let k := normalizeApiKey key
        if isValidHeaderValue k then insertHeader headers "authorization" k
        else headers
    | none => headers
  { base_uri := trimTrailingSlashes (base_uri.getD "http://localhost:7437"),
    headers := headers,
    verbose := verbose }

/-- Embeds `AGiXTSDK::login`.  The method receives the response (status,
raw body text, `serde_json::from_str` result) and returns the updated
client state paired with the optional token: on a success status whose
body carries a string `token` field, the token is installed as the
authorization header (when it is a valid header value) and returned;
otherwise the state is unchanged and `None` is returned. -/
def login (sdk : AGiXTSDK) (status : Nat) (body : String)
    (decoded : Option Json) : Except Error (AGiXTSDK × Option String) := do
  if sdk.verbose then
    parse_response status body
  match decoded with
  | none => throw (.JsonError "invalid JSON")
  | some json =>
    if isSuccessStatus status then
      match (json.getField "token").bind Json.asStr with
      | some token =>
          let sdk' :=
            if isValidHeaderValue token then
              { sdk with headers := insertHeader sdk.headers "authorization" token }
            else sdk
          pure (sdk', some token)
      | none => pure (sdk, none)
    else pure (sdk, none)

/-- Fuelled splitting on every non-overlapping occurrence of `pat`
(leftmost first), the semantics of Rust's `str::split` for a non-empty
string pattern; companion of `removeAllFuel`. -/
def splitFuel (pat : List Char) : Nat → List Char → List (List Char)
  | 0, s => [s]
  | _ + 1, [] => [[]]
  | fuel + 1, c :: rest =>
    if pat ≠ [] ∧ pat.isPrefixOf (c :: rest) then
      [] :: splitFuel pat fuel (List.drop pat.length (c :: rest))
    else
      match splitFuel pat fuel rest with
      | [] => [[c]]
      | h :: t => (c :: h) :: t

/-- Split `s` on every occurrence of `pat`; embeds `s.split(pat)`. -/
def splitList (pat s : List Char) : List (List Char) :=
  splitFuel pat s.length s

/-- Split at the first occurrence of `pat` only: `some (before, after)`
when `pat` occurs, `none` otherwise.  This is the specification-side
notion of "string search for the first occurrence". -/
def splitOnce (pat : List Char) : List Char → Option (List Char × List Char)
  | [] => none
  | c :: rest =>
    if pat ≠ [] ∧ pat.isPrefixOf (c :: rest) then
      some ([], List.drop pat.length (c :: rest))
    else
      (splitOnce pat rest).map (fun p => (c :: p.1, p.2))

/-- Modelled from the spec's description of the magic-link extraction: when
the detail string contains `?token=`, the token is the segment of the
detail after the first occurrence of the literal `token=`, cut at the next
occurrence of `token=` if there is one; otherwise there is no token. -/
def magicTokenSpec (detail : List Char) : Option (List Char) :=
  if occursB "?token=".toList detail then
    match splitOnce "token=".toList detail with
    | none => some []
    | some (_, after) =>
        match splitOnce "token=".toList after with
        | none => some after
        | some (beforeNext, _) => some beforeNext
  else none

/-- Embeds `AGiXTSDK::login_magic_link`: no status check at all; when the
body's `detail` string field contains `?token=`, the token is
`detail.split("token=").nth(1).unwrap_or_default()`, installed as the
authorization header when it is a valid header value, and returned. -/
def login_magic_link (sdk : AGiXTSDK) (status : Nat) (body : String)
    (decoded : Option Json) : Except Error (AGiXTSDK × Option String) := do
  if sdk.verbose then
    parse_response status body
  match decoded with
  | none => throw (.JsonError "invalid JSON")
  | some json =>
    match (json.getField "detail").bind Json.asStr with
    | some detail =>
        if occursB "?token=".toList detail.toList then
          let token := String.mk (((splitList "token=".toList detail.toList).get? 1).getD [])
          let sdk' :=
            if isValidHeaderValue token then
              { sdk with headers := insertHeader sdk.headers "authorization" token }
            else sdk
          pure (sdk', some token)
        else pure (sdk, none)
    | none => pure (sdk, none)

/-- Embeds `AGiXTSDK::text_to_speech`: the one binary endpoint.  On a
non-success status the text body becomes an `ApiError`; on success the raw
response bytes are returned without any JSON parsing.  The method never
consults the `verbose` flag. -/
def text_to_speech (verbose : Bool) (status : Nat) (textBody : String)
    (respBytes : List Nat) : Except Error (List Nat) :=
  if isSuccessStatus status = false then
    .error (.ApiError status textBody)
  else
    .ok respBytes

/-- A list is a `isPrefixOf`-prefix of itself followed by anything. -/
theorem isPrefixOf_append_self (l t : List Char) : l.isPrefixOf (l ++ t) = true := by
  induction l with
  | nil => simp [List.isPrefixOf]
  | cons a as ih => simp [List.isPrefixOf, ih]

/-- A boolean prefix decomposes the larger list as prefix plus remainder. -/
theorem eq_append_drop_of_isPrefixOf :
    ∀ (pat s : List Char), pat.isPrefixOf s = true → s = pat ++ s.drop pat.length := by
  intro pat
  induction pat with
  | nil => intro s _; simp
  | cons a as ih =>
    intro s h
    cases s with
    | nil => simp [List.isPrefixOf] at h
    | cons b bs =>
      simp only [List.isPrefixOf, Bool.and_eq_true, beq_iff_eq] at h
      obtain ⟨rfl, h2⟩ := h
      simpa using ih bs h2

/-- `removeAllFuel` does not depend on the fuel once it covers the input
length. -/
theorem removeAllFuel_congr (pat : List Char) :
    ∀ (f₁ f₂ : Nat) (s : List Char), s.length ≤ f₁ → s.length ≤ f₂ →
      removeAllFuel pat f₁ s = removeAllFuel pat f₂ s := by
  intro f₁
  induction f₁ with
  | zero =>
    intro f₂ s h₁ _
    have hs : s = [] := List.eq_nil_of_length_eq_zero (Nat.le_zero.mp h₁)
    subst hs
    cases f₂ <;> rfl
  | succ f₁ ih =>
    intro f₂ s h₁ h₂
    cases s with
    | nil => cases f₂ <;> rfl
    | cons c rest =>
      cases f₂ with
      | zero => simp at h₂
      | succ f₂ =>
        simp only [removeAllFuel]
        by_cases hc : pat ≠ [] ∧ pat.isPrefixOf (c :: rest)
        · simp only [if_pos hc]
          have hlen : 0 < pat.length := List.length_pos.mpr hc.1
          have hdrop : (List.drop pat.length (c :: rest)).length ≤ f₁ := by
            simp only [List.length_drop, List.length_cons]
            simp only [List.length_cons] at h₁
            omega
          have hdrop₂ : (List.drop pat.length (c :: rest)).length ≤ f₂ := by
            simp only [List.length_drop, List.length_cons]
            simp only [List.length_cons] at h₂
            omega
          exact ih f₂ _ hdrop hdrop₂
        · simp only [if_neg hc]
          have hr₁ : rest.length ≤ f₁ := by simp at h₁; omega
          have hr₂ : rest.length ≤ f₂ := by simp at h₂; omega
          rw [ih f₂ rest hr₁ hr₂]

/-- Unfolding equation of `removeAll` on a match position. -/
theorem removeAll_cons_pos {pat : List Char} (c : Char) (rest : List Char)
    (hne : pat ≠ []) (hpre : pat.isPrefixOf (c :: rest) = true) :
    removeAll pat (c :: rest) = removeAll pat (List.drop pat.length (c :: rest)) := by
  have hlen : 0 < pat.length := List.length_pos.mpr hne
  show removeAllFuel pat (rest.length + 1) (c :: rest) = _
  simp only [removeAllFuel, if_pos (And.intro hne hpre)]
  apply removeAllFuel_congr
  · simp only [List.length_drop, List.length_cons]; omega
  · exact Nat.le_refl _

/-- Unfolding equation of `removeAll` on a non-match position. -/
theorem removeAll_cons_neg {pat : List Char} (c : Char) (rest : List Char)
    (h : ¬(pat ≠ [] ∧ pat.isPrefixOf (c :: rest) = true)) :
    removeAll pat (c :: rest) = c :: removeAll pat rest := by
  show removeAllFuel pat (rest.length + 1) (c :: rest) = _
  simp only [removeAllFuel, if_neg h]
  rfl

/-- Strings without any occurrence of the pattern are left unchanged by
`removeAll`. -/
theorem removeAll_of_not_occursB {pat : List Char} :
    ∀ {s : List Char}, occursB pat s = false → removeAll pat s = s := by
  intro s
  induction s with
  | nil => intro _; rfl
  | cons c rest ih =>
    intro h
    simp only [occursB, Bool.or_eq_false_iff] at h
    rw [removeAll_cons_neg c rest (fun hc => by rw [h.1] at hc; exact Bool.false_ne_true hc.2),
      ih h.2]

/-- `removeAll` strips a leading literal occurrence of the pattern. -/
theorem removeAll_self_append {pat : List Char} (hne : pat ≠ []) (rest : List Char) :
    removeAll pat (pat ++ rest) = removeAll pat rest := by
  cases pat with
  | nil => exact absurd rfl hne
  | cons a as =>
    rw [List.cons_append, removeAll_cons_pos a (as ++ rest) hne
      (by rw [← List.cons_append]; exact isPrefixOf_append_self _ _)]
    congr 1
    rw [← List.cons_append, List.drop_left]

/-- Characters violating a predicate that holds of every pattern character
survive `removeAllFuel`: the removal only deletes characters belonging to
occurrences of the pattern. -/
theorem mem_removeAllFuel_of_not (pat : List Char) (p : Char → Bool)
    (hpat : ∀ d ∈ pat, p d = true) :
    ∀ (fuel : Nat) (s : List Char) (c : Char), s.length ≤ fuel → c ∈ s → p c = false →
      c ∈ removeAllFuel pat fuel s := by
  intro fuel
  induction fuel with
  | zero => intro s c _ hmem _; exact hmem
  | succ fuel ih =>
    intro s c hlen hmem hc
    cases s with
    | nil => simp at hmem
    | cons c₀ rest =>
      simp only [removeAllFuel]
      by_cases hcond : pat ≠ [] ∧ pat.isPrefixOf (c₀ :: rest)
      · simp only [if_pos hcond]
        have hdecomp := eq_append_drop_of_isPrefixOf pat (c₀ :: rest) hcond.2
        rw [hdecomp] at hmem
        rcases List.mem_append.mp hmem with hin | hin
        · rw [hpat c hin] at hc; exact absurd hc (by simp)
        · have hlen' : (List.drop pat.length (c₀ :: rest)).length ≤ fuel := by
            have hlp : 0 < pat.length := List.length_pos.mpr hcond.1
            simp only [List.length_drop, List.length_cons]
            simp only [List.length_cons] at hlen
            omega
          exact ih _ c hlen' hin hc
      · simp only [if_neg hcond]
        rcases List.mem_cons.mp hmem with rfl | hin
        · exact List.mem_cons_self _ _
        · have hlen' : rest.length ≤ fuel := by simp at hlen; omega
          exact List.mem_cons_of_mem _ (ih rest c hlen' hin hc)

/-- `removeAll` version of the survival lemma. -/
theorem mem_removeAll_of_not (pat : List Char) (p : Char → Bool)
    (hpat : ∀ d ∈ pat, p d = true) (s : List Char) (c : Char)
    (hmem : c ∈ s) (hc : p c = false) : c ∈ removeAll pat s :=
  mem_removeAllFuel_of_not pat p hpat s.length s c (Nat.le_refl _) hmem hc

/-- The head surviving a `dropWhile` refutes the predicate. -/
theorem head?_dropWhile_false (p : Char → Bool) :
    ∀ (l : List Char) (x : Char), (l.dropWhile p).head? = some x → p x = false := by
  intro l
  induction l with
  | nil => intro x h; simp [List.dropWhile] at h
  | cons c t ih =>
    intro x h
    rw [List.dropWhile_cons] at h
    by_cases hc : p c
    · rw [if_pos hc] at h; exact ih x h
    · rw [if_neg hc] at h
      simp only [List.head?_cons, Option.some.injEq] at h
      subst h
      exact Bool.not_eq_true _ |>.mp hc

/-- The trimmed base URI never ends in a slash. -/
theorem endsWithSlash_trimTrailingSlashes (s : String) :
    endsWithSlash (trimTrailingSlashes s) = false := by
  show ((((s.toList.reverse.dropWhile (fun c => c == '/')).reverse : List Char).getLast?)
        == some '/') = false
  rw [List.getLast?_reverse]
  cases hh : (s.toList.reverse.dropWhile (fun c => c == '/')).head? with
  | none => rfl
  | some x =>
    have := head?_dropWhile_false (fun c => c == '/') _ x hh
    simp only [Option.some_beq_some]
    exact this

/-- Replacing an existing header in place leaves the new pair findable. -/
theorem find?_replaceHeader (k v : String) :
    ∀ (m : List (String × String)), m.any (fun p => p.1 == k) = true →
      (m.map (fun p => if p.1 == k then (k, v) else p)).find? (fun p => p.1 == k) =
        some (k, v) := by
  intro m
  induction m with
  | nil => intro h; simp at h
  | cons hd tl ih =>
    intro h
    rw [List.map_cons]
    by_cases hk : (hd.1 == k) = true
    · rw [if_pos hk, List.find?_cons_of_pos _ (by simp)]
    · rw [if_neg hk, List.find?_cons_of_neg _ (by simpa using hk)]
      apply ih
      simp only [List.any_cons, Bool.or_eq_true] at h
      rcases h with h | h
      · exact absurd h hk
      · exact h

/-- Appending a fresh header leaves it findable. -/
theorem find?_appendHeader (k v : String) :
    ∀ (m : List (String × String)), m.any (fun p => p.1 == k) = false →
      (m ++ [(k, v)]).find? (fun p => p.1 == k) = some (k, v) := by
  intro m
  induction m with
  | nil => intro _; exact List.find?_cons_of_pos _ (by simp)
  | cons hd tl ih =>
    intro h
    simp only [List.any_cons, Bool.or_eq_false_iff] at h
    rw [List.cons_append, List.find?_cons_of_neg _ (by simp [h.1])]
    exact ih h.2

/-- Inserting a header makes it readable back under the same name. -/
theorem getHeader_insertHeader (headers : List (String × String)) (k v : String) :
    getHeader (insertHeader headers k v) k = some v := by
  unfold insertHeader getHeader
  by_cases h : headers.any (fun p => p.1 == k)
  · rw [if_pos h, find?_replaceHeader k v headers h]
    rfl
  · rw [if_neg h, find?_appendHeader k v headers (Bool.not_eq_true _ |>.mp h)]
    rfl

/-- `splitFuel` always produces at least one segment. -/
theorem splitFuel_ne_nil (pat : List Char) :
    ∀ (fuel : Nat) (s : List Char), splitFuel pat fuel s ≠ [] := by
  intro fuel
  induction fuel with
  | zero => intro s; simp [splitFuel]
  | succ fuel ih =>
    intro s
    cases s with
    | nil => simp [splitFuel]
    | cons c rest =>
      simp only [splitFuel]
      by_cases hc : pat ≠ [] ∧ pat.isPrefixOf (c :: rest)
      · simp only [if_pos hc]
        simp
      · rw [if_neg hc]
        cases h : splitFuel pat fuel rest with
        | nil => simp
        | cons hd tl => simp

/-- `splitFuel` does not depend on the fuel once it covers the input
length. -/
theorem splitFuel_congr (pat : List Char) :
    ∀ (f₁ f₂ : Nat) (s : List Char), s.length ≤ f₁ → s.length ≤ f₂ →
      splitFuel pat f₁ s = splitFuel pat f₂ s := by
  intro f₁
  induction f₁ with
  | zero =>
    intro f₂ s h₁ _
    have hs : s = [] := List.eq_nil_of_length_eq_zero (Nat.le_zero.mp h₁)
    subst hs
    cases f₂ <;> rfl
  | succ f₁ ih =>
    intro f₂ s h₁ h₂
    cases s with
    | nil => cases f₂ <;> rfl
    | cons c rest =>
      cases f₂ with
      | zero => simp at h₂
      | succ f₂ =>
        simp only [splitFuel]
        by_cases hc : pat ≠ [] ∧ pat.isPrefixOf (c :: rest)
        · simp only [if_pos hc]
          have hlp : 0 < pat.length := List.length_pos.mpr hc.1
          have hd₁ : (List.drop pat.length (c :: rest)).length ≤ f₁ := by
            simp only [List.length_drop, List.length_cons]
            simp only [List.length_cons] at h₁
            omega
          have hd₂ : (List.drop pat.length (c :: rest)).length ≤ f₂ := by
            simp only [List.length_drop, List.length_cons]
            simp only [List.length_cons] at h₂
            omega
          rw [ih f₂ _ hd₁ hd₂]
        · simp only [if_neg hc]
          have hr₁ : rest.length ≤ f₁ := by simp at h₁; omega
          have hr₂ : rest.length ≤ f₂ := by simp at h₂; omega
          rw [ih f₂ rest hr₁ hr₂]

/-- Unfolding equation of `splitList` at a match position. -/
theorem splitList_cons_pos {pat : List Char} (c : Char) (rest : List Char)
    (hne : pat ≠ []) (hpre : pat.isPrefixOf (c :: rest) = true) :
    splitList pat (c :: rest) = [] :: splitList pat (List.drop pat.length (c :: rest)) := by
  have hlp : 0 < pat.length := List.length_pos.mpr hne
  show splitFuel pat (rest.length + 1) (c :: rest) = _
  simp only [splitFuel, if_pos (And.intro hne hpre)]
  congr 1
  apply splitFuel_congr
  · simp only [List.length_drop, List.length_cons]; omega
  · exact Nat.le_refl _

/-- Unfolding equation of `splitList` at a non-match position. -/
theorem splitList_cons_neg {pat : List Char} (c : Char) (rest : List Char)
    (h : ¬(pat ≠ [] ∧ pat.isPrefixOf (c :: rest) = true)) :
    splitList pat (c :: rest) =
      match splitList pat rest with
      | [] => [[c]]
      | hd :: tl => (c :: hd) :: tl := by
  show splitFuel pat (rest.length + 1) (c :: rest) = _
  simp only [splitFuel, if_neg h]
  rfl

/-- `splitList` never produces the empty list of segments. -/
theorem splitList_ne_nil (pat s : List Char) : splitList pat s ≠ [] :=
  splitFuel_ne_nil pat s.length s

/-- The full split is the first-occurrence split followed by the split of
the remainder: Rust's `split` agrees with repeated string search. -/
theorem splitList_eq_splitOnce (pat : List Char) :
    ∀ s, splitList pat s =
      match splitOnce pat s with
      | none => [s]
      | some (a, b) => a :: splitList pat b := by
  intro s
  induction s with
  | nil => simp [splitOnce]; rfl
  | cons c rest ih =>
    by_cases hc : pat ≠ [] ∧ pat.isPrefixOf (c :: rest)
    · rw [splitList_cons_pos c rest hc.1 hc.2]
      simp only [splitOnce, if_pos hc]
    · rw [splitList_cons_neg c rest hc]
      simp only [splitOnce, if_neg hc]
      cases hso : splitOnce pat rest with
      | none =>
        rw [hso] at ih
        have ih' : splitList pat rest = [rest] := by rw [ih]
        rw [ih']
        rfl
      | some p =>
        obtain ⟨a, b⟩ := p
        rw [hso] at ih
        have ih' : splitList pat rest = a :: splitList pat b := by rw [ih]
        rw [ih']
        rfl

/-- Every occurrence of a non-empty pattern is found by `splitOnce`. -/
theorem splitOnce_isSome_of_occursB (pat : List Char) (hne : pat ≠ []) :
    ∀ s, occursB pat s = true → (splitOnce pat s).isSome = true := by
  intro s
  induction s with
  | nil =>
    intro h
    simp only [occursB, List.isEmpty_iff] at h
    exact absurd h hne
  | cons c rest ih =>
    intro h
    simp only [occursB, Bool.or_eq_true] at h
    by_cases hpre : pat.isPrefixOf (c :: rest) = true
    · simp only [splitOnce]
      rw [if_pos (And.intro hne hpre)]
      rfl
    · have hr : occursB pat rest = true := by
        rcases h with h | h
        · exact absurd h hpre
        · exact h
      simp only [splitOnce]
      rw [if_neg (fun hc : pat ≠ [] ∧ pat.isPrefixOf (c :: rest) = true => hpre hc.2)]
      have hs := ih hr
      cases ho : splitOnce pat rest with
      | none => rw [ho] at hs; simp at hs
      | some p => rfl

/-- An occurrence of an extended pattern contains an occurrence of the
pattern itself. -/
theorem occursB_of_occursB_cons (x : Char) (pat : List Char) :
    ∀ s, occursB (x :: pat) s = true → occursB pat s = true := by
  intro s
  induction s with
  | nil => intro h; simp [occursB] at h
  | cons c rest ih =>
    intro h
    simp only [occursB, Bool.or_eq_true] at h ⊢
    rcases h with h | h
    · simp only [List.isPrefixOf, Bool.and_eq_true] at h
      cases rest with
      | nil =>
        cases pat with
        | nil => left; simp [List.isPrefixOf]
        | cons y ys => simp [List.isPrefixOf] at h
      | cons c' rest' =>
        right
        simp only [occursB, Bool.or_eq_true]
        left
        exact h.2
    · right
      exact ih h

/-- The linear scan returns the `id` of the first element whose `name`
matches, regardless of what follows it. -/
theorem lookupIdByName_first_match (n : String) :
    ∀ (pre : List Json) (c : Json) (post : List Json),
      (∀ x ∈ pre, (x.getField "name").bind Json.asStr ≠ some n) →
      (c.getField "name").bind Json.asStr = some n →
      lookupIdByName (pre ++ c :: post) n = (c.getField "id").bind Json.asStr := by
  intro pre
  induction pre with
  | nil =>
    intro c post _ hc
    simp only [List.nil_append, lookupIdByName]
    rw [hc]
    simp
  | cons x xs ih =>
    intro c post hpre hc
    rw [List.cons_append]
    simp only [lookupIdByName]
    cases hx : (x.getField "name").bind Json.asStr with
    | none => exact ih c post (fun y hy => hpre y (List.mem_cons_of_mem x hy)) hc
    | some name =>
      have hne : name ≠ n := by
        intro hEq
        exact hpre x (List.mem_cons_self x xs) (by rw [hx, hEq])
      simp only [if_neg hne]
      exact ih c post (fun y hy => hpre y (List.mem_cons_of_mem x hy)) hc

/-- The linear scan returns `none` when no element's `name` matches. -/
theorem lookupIdByName_no_match (n : String) :
    ∀ (l : List Json),
      (∀ x ∈ l, (x.getField "name").bind Json.asStr ≠ some n) →
      lookupIdByName l n = none := by
  intro l
  induction l with
  | nil => intro _; rfl
  | cons x xs ih =>
    intro h
    simp only [lookupIdByName]
    cases hx : (x.getField "name").bind Json.asStr with
    | none => exact ih (fun y hy => h y (List.mem_cons_of_mem x hy))
    | some name =>
      have hne : name ≠ n := by
        intro hEq
        exact h x (List.mem_cons_self x xs) (by rw [hx, hEq])
      simp only [if_neg hne]
      exact ih (fun y hy => h y (List.mem_cons_of_mem x hy))

/-- The id/name-map scan of the conversation helper: first match wins. -/
theorem lookupConvId_first_match (n : String) :
    ∀ (pre : List (Option String × Option String)) (i : Option String)
      (post : List (Option String × Option String)),
      (∀ e ∈ pre, e.2 ≠ some n) →
      lookupConvId (pre ++ (i, some n) :: post) n = i := by
  intro pre
  induction pre with
  | nil =>
    intro i post _
    simp only [List.nil_append, lookupConvId]
    simp
  | cons e es ih =>
    intro i post hpre
    rw [List.cons_append]
    obtain ⟨j, nm⟩ := e
    simp only [lookupConvId]
    cases nm with
    | none => exact ih i post (fun y hy => hpre y (List.mem_cons_of_mem _ hy))
    | some name =>
      have hne : name ≠ n := by
        intro hEq
        exact hpre (j, some name) (List.mem_cons_self _ es) (by simp [hEq])
      simp only [if_neg hne]
      exact ih i post (fun y hy => hpre y (List.mem_cons_of_mem _ hy))

/-- The id/name-map scan returns `none` when no entry's name matches. -/
theorem lookupConvId_no_match (n : String) :
    ∀ (l : List (Option String × Option String)),
      (∀ e ∈ l, e.2 ≠ some n) → lookupConvId l n = none := by
  intro l
  induction l with
  | nil => intro _; rfl
  | cons e es ih =>
    intro h
    obtain ⟨j, nm⟩ := e
    simp only [lookupConvId]
    cases nm with
    | none => exact ih (fun y hy => h y (List.mem_cons_of_mem _ hy))
    | some name =>
      have hne : name ≠ n := by
        intro hEq
        exact h (j, some name) (List.mem_cons_self _ es) (by simp [hEq])
      simp only [if_neg hne]
      exact ih (fun y hy => h y (List.mem_cons_of_mem _ hy))

/-- Every id/name map built from a listing inherits its name from some
object of the listing. -/
theorem convMaps_no_match (n : String) (l : List Json)
    (h : ∀ x ∈ l, (x.getField "name").bind Json.asStr ≠ some n) :
    ∀ e ∈ conversationsWithIdsMaps l, e.2 ≠ some n := by
  intro e he
  unfold conversationsWithIdsMaps at he
  rcases List.mem_filterMap.mp he with ⟨x, hx, hfx⟩
  cases x with
  | obj fields =>
    simp only [Option.some.injEq] at hfx
    subst hfx
    exact h _ hx
  | null => simp at hfx
  | bool b => simp at hfx
  | num m => simp at hfx
  | str s => simp at hfx
  | arr elems => simp at hfx

/-- The maps of an object element of the listing. -/
theorem convMaps_append (pre post : List Json) :
    conversationsWithIdsMaps (pre ++ post) =
      conversationsWithIdsMaps pre ++ conversationsWithIdsMaps post := by
  unfold conversationsWithIdsMaps
  exact List.filterMap_append pre post _

/-- With the verbose flag set, a non-success status aborts every endpoint
with the `ApiError` produced by `parse_response`. -/
theorem endpointCall_verbose_err {α : Type} (status : Nat) (body : String)
    (decoded : Option Json) (unwrap : Json → Except Error α)
    (h : isSuccessStatus status = false) :
    endpointCall true status body decoded unwrap = .error (.ApiError status body) := by
  simp [endpointCall, parse_response, h]
  rfl

/-- On a success status the verbose gate is a no-op and the parsed body
reaches the unwrapping step. -/
theorem endpointCall_success {α : Type} (verbose : Bool) (status : Nat) (body : String)
    (j : Json) (unwrap : Json → Except Error α) (h : isSuccessStatus status = true) :
    endpointCall verbose status body (some j) unwrap = unwrap j := by
  cases verbose with
  | false => rfl
  | true =>
    simp [endpointCall, parse_response, h]
    rfl

/-- With the verbose flag unset the status is never inspected. -/
theorem endpointCall_not_verbose {α : Type} (status : Nat) (body : String)
    (j : Json) (unwrap : Json → Except Error α) :
    endpointCall false status body (some j) unwrap = unwrap j := rfl

/-- No occurrence of `Bearer ` (capital B) spans into or out of a leading
`bearer ` (small b): the first character of the pattern matches none of
the seven leading characters. -/
theorem occursB_Bearer_after_lower (rest : List Char)
    (h : occursB "Bearer ".toList rest = false) :
    occursB "Bearer ".toList ("bearer ".toList ++ rest) = false := by
  have hB : "Bearer ".toList = ['B', 'e', 'a', 'r', 'e', 'r', ' '] := rfl
  have hb : "bearer ".toList = ['b', 'e', 'a', 'r', 'e', 'r', ' '] := rfl
  rw [hB] at h ⊢
  rw [hb]
  simp [occursB, List.isPrefixOf, h]

/-- A credential that is not a valid header value stays invalid after the
`Bearer `/`bearer ` replacement: the replacement only deletes characters of
the patterns, which are all valid. -/
theorem isValidHeaderValue_normalizeApiKey (key : String)
    (h : isValidHeaderValue key = false) :
    isValidHeaderValue (normalizeApiKey key) = false := by
  unfold isValidHeaderValue at h
  obtain ⟨c, hc_mem, hc⟩ := List.all_eq_false.mp h
  have hc' : validHeaderChar c = false := Bool.not_eq_true _ |>.mp hc
  have h1 : c ∈ removeAll "Bearer ".toList key.toList :=
    mem_removeAll_of_not _ validHeaderChar (by decide) _ c hc_mem hc'
  have h2 : c ∈ removeAll "bearer ".toList (removeAll "Bearer ".toList key.toList) :=
    mem_removeAll_of_not _ validHeaderChar (by decide) _ c h1 hc'
  unfold isValidHeaderValue normalizeApiKey
  exact List.all_eq_false.mpr ⟨c, h2, hc⟩

/-- Claim C7: for every constructed client — any base URI (including the
`none` default `http://localhost:7437`) and any credential — the stored
base URI never ends in `/`.  No client operation writes to `base_uri`
after construction, so the invariant holds for the client's lifetime. -/
theorem base_uri_never_ends_in_slash (base_uri : Option String)
    (api_key : Option String) (verbose : Bool) :
    endsWithSlash (AGiXTSDK.new base_uri api_key verbose).base_uri = false := by
  have hb : (AGiXTSDK.new base_uri api_key verbose).base_uri
      = trimTrailingSlashes (base_uri.getD "http://localhost:7437") := rfl
  rw [hb]
  exact endsWithSlash_trimTrailingSlashes _

/-- Claim C9: `text_to_speech` returns the raw response bytes directly on
every success status (no JSON parsing), and on every non-success status
returns the same structured `ApiError` as the other endpoints, carrying
the numeric status and the text body; the `verbose` flag is never read by
this method, so both facts hold for either value of it. -/
theorem text_to_speech_error_contract (verbose : Bool) (status : Nat)
    (textBody : String) (respBytes : List Nat) :
    (isSuccessStatus status = true →
      text_to_speech verbose status textBody respBytes = .ok respBytes) ∧
    (isSuccessStatus status = false →
      text_to_speech verbose status textBody respBytes =
        .error (.ApiError status textBody)) := by
  constructor
  · intro h
    simp [text_to_speech, h]
  · intro h
    simp [text_to_speech, h]

/-- Witness for C9 at status 200 (bytes through) and 404 (API error). -/
theorem text_to_speech_error_contract_witness :
    text_to_speech true 200 "" [7, 8] = .ok [7, 8] ∧
    text_to_speech false 404 "not found" [] = .error (.ApiError 404 "not found") :=
  ⟨(text_to_speech_error_contract true 200 "" [7, 8]).1 (by decide),
   (text_to_speech_error_contract false 404 "not found" []).2 (by decide)⟩

/-- Claim C1 fails as stated: with the verbose flag unset, `get_user` on a
status-500 response whose body is the valid JSON `[]` returns the parsed
body as a success value — no API error exposing the status 500 and the
body is produced. -/
theorem get_user_ignores_status_when_not_verbose :
    get_user false 500 "[]" (some (.arr [])) = .ok (.arr []) ∧
    get_user false 500 "[]" (some (.arr [])) ≠ .error (.ApiError 500 "[]") := by
  constructor
  · rfl
  · intro h
    exact Except.noConfusion h

/-- Claim C1 (amended): the API error for a failure status is produced by
the shared endpoint tail only when the verbose flag is true — any status
at least 400 then yields `ApiError` with the original status and the exact
raw body, whatever the decode result; when the verbose flag is false the
status is never inspected and a parsed body reaches the endpoint's
unwrapping step unchanged. -/
theorem api_error_surfaced_only_when_verbose :
    (∀ (α : Type) (status : Nat) (body : String) (decoded : Option Json)
       (unwrap : Json → Except Error α), 400 ≤ status →
        endpointCall true status body decoded unwrap = .error (.ApiError status body)) ∧
    (∀ (α : Type) (status : Nat) (body : String) (j : Json)
       (unwrap : Json → Except Error α),
        endpointCall false status body (some j) unwrap = unwrap j) := by
  constructor
  · intro α status body decoded unwrap h
    refine endpointCall_verbose_err status body decoded unwrap ?_
    unfold isSuccessStatus
    rw [decide_eq_false_iff_not]
    omega
  · intro α status body j unwrap
    exact endpointCall_not_verbose status body j unwrap

/-- Witness for the amended C1: status 404 with verbose on errors, status
500 with verbose off is decoded normally. -/
theorem api_error_surfaced_only_when_verbose_witness :
    endpointCall true 404 "nf" (some .null) (fun j => .ok j) = .error (.ApiError 404 "nf") ∧
    endpointCall false 500 "[]" (some (.arr [])) (fun j => .ok j) = .ok (.arr []) :=
  ⟨api_error_surfaced_only_when_verbose.1 Json 404 "nf" (some .null)
      (fun j => .ok j) (by omega),
   api_error_surfaced_only_when_verbose.2 Json 500 "[]" (.arr []) (fun j => .ok j)⟩

/-- Claim C3 fails as stated: `get_conversations` on a success response
whose body is the valid JSON object (raw text of two braces) lacking the
`conversations` field silently returns the empty list instead of a decode
error. -/
theorem get_conversations_defaults_missing_field :
    get_conversations false 200 "\x7b\x7d" (some (.obj [])) = .ok [] ∧
    (get_conversations false 200 "\x7b\x7d" (some (.obj []))).isOk = true := by
  constructor
  · rfl
  · rfl

/-- Claim C3 (amended): endpoints deserializing a serde struct envelope
(`agents`, `message`, `prompts`, …) do fail with a decode error — distinct
from an API error — when a successful valid-JSON body lacks the field; but
the tolerant listing endpoints silently default: `get_conversations`
returns the empty list, and `user_exists` returns `false`, on valid JSON
of unexpected shape. -/
theorem envelope_field_absence_behavior :
    (∀ (verbose : Bool) (status : Nat) (body : String) (j : Json),
      isSuccessStatus status = true →
      (j.getField "agents").bind Json.asArr = none →
      get_agents verbose status body (some j) =
        .error (.JsonError "missing field agents")) ∧
    (∀ (verbose : Bool) (status : Nat) (body : String) (j : Json),
      isSuccessStatus status = true →
      (j.getField "message").bind Json.asStr = none →
      import_chain verbose status body (some j) =
        .error (.JsonError "missing field message")) ∧
    (∀ (verbose : Bool) (status : Nat) (body : String) (j : Json),
      isSuccessStatus status = true →
      j.asArr = none → (j.getField "conversations").bind Json.asArr = none →
      get_conversations verbose status body (some j) = .ok []) ∧
    (∀ (verbose : Bool) (status : Nat) (body : String) (j : Json),
      isSuccessStatus status = true → j.asBool = none →
      user_exists verbose status body (some j) = .ok false) := by
  refine ⟨?_, ?_, ?_, ?_⟩
  · intro verbose status body j hs hf
    unfold get_agents
    rw [endpointCall_success verbose status body j _ hs]
    simp [hf]
  · intro verbose status body j hs hf
    unfold import_chain
    rw [endpointCall_success verbose status body j _ hs]
    simp [messageUnwrap, hf]
  · intro verbose status body j hs h1 h2
    unfold get_conversations
    rw [endpointCall_success verbose status body j _ hs]
    simp [conversationsUnwrap, h1, h2]
  · intro verbose status body j hs hb
    unfold user_exists
    rw [endpointCall_success verbose status body j _ hs]
    simp [hb]

/-- Witness for the amended C3 at the empty JSON object. -/
theorem envelope_field_absence_behavior_witness :
    get_agents false 200 "\x7b\x7d" (some (.obj []))
      = .error (.JsonError "missing field agents") ∧
    import_chain false 200 "\x7b\x7d" (some (.obj []))
      = .error (.JsonError "missing field message") ∧
    get_conversations true 200 "\x7b\x7d" (some (.obj [])) = .ok [] ∧
    user_exists false 200 "\x7b\x7d" (some (.obj [])) = .ok false :=
  ⟨envelope_field_absence_behavior.1 false 200 "\x7b\x7d" (.obj []) (by decide) rfl,
   envelope_field_absence_behavior.2.1 false 200 "\x7b\x7d" (.obj []) (by decide) rfl,
   envelope_field_absence_behavior.2.2.1 true 200 "\x7b\x7d" (.obj []) (by decide) rfl rfl,
   envelope_field_absence_behavior.2.2.2 false 200 "\x7b\x7d" (.obj []) (by decide) rfl⟩

/-- Reduction of a successful do-bind in the `Except` monad. -/
theorem bindOk {α β : Type} (x : α) (f : α → Except Error β) :
    (do let y ← Except.ok x; f y) = f x := rfl

/-- `get_chains` on a successful array body yields the array. -/
theorem get_chains_ok (verbose : Bool) (status : Nat) (body : String)
    (l : List Json) (hs : isSuccessStatus status = true) :
    get_chains verbose status body (some (.arr l)) = .ok l := by
  unfold get_chains
  rw [endpointCall_success verbose status body _ _ hs]
  rfl

/-- `get_agents` on a successful `agents` envelope of objects yields the
listing. -/
theorem get_agents_ok (verbose : Bool) (status : Nat) (body : String)
    (l : List Json) (hs : isSuccessStatus status = true)
    (hobj : l.all Json.isObj = true) :
    get_agents verbose status body (some (.obj [("agents", .arr l)])) = .ok l := by
  unfold get_agents
  rw [endpointCall_success verbose status body _ _ hs]
  have hf : ((Json.obj [("agents", Json.arr l)]).getField "agents").bind Json.asArr
      = some l := rfl
  simp [hf, hobj]

/-- `get_prompts` on a successful `prompts` envelope yields the listing. -/
theorem get_prompts_ok (verbose : Bool) (status : Nat) (body : String)
    (l : List Json) (hs : isSuccessStatus status = true) :
    get_prompts verbose status body (some (.obj [("prompts", .arr l)])) = .ok l := by
  unfold get_prompts
  rw [endpointCall_success verbose status body _ _ hs]
  have hf : ((Json.obj [("prompts", Json.arr l)]).getField "prompts").bind Json.asArr
      = some l := rfl
  simp [hf]

/-- `get_conversations_with_ids` on a successful array body yields the
id/name maps of the listing. -/
theorem get_conversations_with_ids_ok (verbose : Bool) (status : Nat) (body : String)
    (l : List Json) (hs : isSuccessStatus status = true) :
    get_conversations_with_ids verbose status body (some (.arr l))
      = .ok (conversationsWithIdsMaps l) := by
  unfold get_conversations_with_ids
  rw [endpointCall_success verbose status body _ _ hs]
  rfl

/-- The id/name map of an object element heads the maps of the rest. -/
theorem convMaps_cons_obj (c : Json) (hobj : Json.isObj c = true) (post : List Json) :
    conversationsWithIdsMaps (c :: post) =
      ((c.getField "id").bind Json.asStr, (c.getField "name").bind Json.asStr)
        :: conversationsWithIdsMaps post := by
  cases c with
  | obj fields => simp [conversationsWithIdsMaps, List.filterMap_cons]
  | null => simp [Json.isObj] at hobj
  | bool b => simp [Json.isObj] at hobj
  | num m => simp [Json.isObj] at hobj
  | str s => simp [Json.isObj] at hobj
  | arr elems => simp [Json.isObj] at hobj

/-- Claim C4: every lookup-by-name helper (chain, agent, prompt,
conversation), on a server listing in which the elements before `c` do not
carry the queried name and `c` does (exact, case-sensitive string
equality), returns `c`'s identifier — so a uniquely named resource
resolves to its own id, and of several same-named resources the first in
server order wins, whatever follows `c`. -/
theorem lookup_by_name_returns_first_match
    (verbose : Bool) (status : Nat) (body : String) (n i : String)
    (pre post : List Json) (c : Json)
    (hs : isSuccessStatus status = true)
    (hpre : ∀ x ∈ pre, (x.getField "name").bind Json.asStr ≠ some n)
    (hc : (c.getField "name").bind Json.asStr = some n)
    (hid : (c.getField "id").bind Json.asStr = some i) :
    get_chain_id_by_name verbose status body (some (.arr (pre ++ c :: post))) n
      = .ok (some i) ∧
    ((pre ++ c :: post).all Json.isObj = true →
      get_agent_id_by_name verbose status body
        (some (.obj [("agents", .arr (pre ++ c :: post))])) n = .ok (some i)) ∧
    get_prompt_id_by_name verbose status body
      (some (.obj [("prompts", .arr (pre ++ c :: post))])) n = .ok (some i) ∧
    (Json.isObj c = true →
      get_conversation_id_by_name verbose status body
        (some (.arr (pre ++ c :: post))) n = .ok (some i)) := by
  have hlook : lookupIdByName (pre ++ c :: post) n = some i := by
    rw [lookupIdByName_first_match n pre c post hpre hc, hid]
  refine ⟨?_, ?_, ?_, ?_⟩
  · unfold get_chain_id_by_name
    rw [get_chains_ok verbose status body _ hs, bindOk, hlook]
    rfl
  · intro hobj
    unfold get_agent_id_by_name
    rw [get_agents_ok verbose status body _ hs hobj, bindOk, hlook]
    rfl
  · unfold get_prompt_id_by_name
    rw [get_prompts_ok verbose status body _ hs, bindOk, hlook]
    rfl
  · intro hcobj
    unfold get_conversation_id_by_name
    rw [get_conversations_with_ids_ok verbose status body _ hs, bindOk,
      convMaps_append pre (c :: post), convMaps_cons_obj c hcobj post, hc,
      lookupConvId_first_match n (conversationsWithIdsMaps pre) _ _
        (convMaps_no_match n pre hpre), hid]
    rfl

/-- Witness for C4: a listing with a decoy, the target, and a same-named
duplicate after it; all four helpers resolve the first match's id `42`. -/
theorem lookup_by_name_returns_first_match_witness :
    get_chain_id_by_name false 200 "x"
      (some (.arr [.obj [("name", .str "other"), ("id", .str "7")],
                   .obj [("name", .str "target"), ("id", .str "42")],
                   .obj [("name", .str "target"), ("id", .str "99")]])) "target"
      = .ok (some "42") ∧
    get_agent_id_by_name false 200 "x"
      (some (.obj [("agents", .arr [.obj [("name", .str "other"), ("id", .str "7")],
                                    .obj [("name", .str "target"), ("id", .str "42")],
                                    .obj [("name", .str "target"), ("id", .str "99")]])]))
      "target" = .ok (some "42") := by
  have h := lookup_by_name_returns_first_match false 200 "x" "target" "42"
    [.obj [("name", .str "other"), ("id", .str "7")]]
    [.obj [("name", .str "target"), ("id", .str "99")]]
    (.obj [("name", .str "target"), ("id", .str "42")])
    (by decide)
    (by
      intro x hx
      simp only [List.mem_singleton] at hx
      subst hx
      decide)
    rfl rfl
  exact ⟨h.1, h.2.1 rfl⟩

/-- Claim C5: each lookup-by-name helper returns the explicit absent
result `Ok(None)` — not an error — whenever no element of the listing
carries the queried name. -/
theorem lookup_by_name_absent_returns_none
    (verbose : Bool) (status : Nat) (body : String) (n : String) (l : List Json)
    (hs : isSuccessStatus status = true)
    (hnone : ∀ x ∈ l, (x.getField "name").bind Json.asStr ≠ some n) :
    get_chain_id_by_name verbose status body (some (.arr l)) n = .ok none ∧
    (l.all Json.isObj = true →
      get_agent_id_by_name verbose status body
        (some (.obj [("agents", .arr l)])) n = .ok none) ∧
    get_prompt_id_by_name verbose status body
      (some (.obj [("prompts", .arr l)])) n = .ok none ∧
    get_conversation_id_by_name verbose status body (some (.arr l)) n = .ok none := by
  have hlook : lookupIdByName l n = none := lookupIdByName_no_match n l hnone
  refine ⟨?_, ?_, ?_, ?_⟩
  · unfold get_chain_id_by_name
    rw [get_chains_ok verbose status body _ hs, bindOk, hlook]
    rfl
  · intro hobj
    unfold get_agent_id_by_name
    rw [get_agents_ok verbose status body _ hs hobj, bindOk, hlook]
    rfl
  · unfold get_prompt_id_by_name
    rw [get_prompts_ok verbose status body _ hs, bindOk, hlook]
    rfl
  · unfold get_conversation_id_by_name
    rw [get_conversations_with_ids_ok verbose status body _ hs, bindOk,
      lookupConvId_no_match n _ (convMaps_no_match n l hnone)]
    rfl

/-- Witness for C5 on a one-element listing without the queried name. -/
theorem lookup_by_name_absent_returns_none_witness :
    get_chain_id_by_name false 200 "x"
      (some (.arr [.obj [("name", .str "other"), ("id", .str "7")]])) "missing"
      = .ok none ∧
    get_conversation_id_by_name false 200 "x"
      (some (.arr [.obj [("name", .str "other"), ("id", .str "7")]])) "missing"
      = .ok none := by
  have h := lookup_by_name_absent_returns_none false 200 "x" "missing"
    [.obj [("name", .str "other"), ("id", .str "7")]]
    (by decide)
    (by
      intro x hx
      simp only [List.mem_singleton] at hx
      subst hx
      decide)
  exact ⟨h.1, h.2.2.2⟩

/-- Claim C6 fails as stated: a success login response carrying the token
`a\nb` — not a valid header value — returns the token but leaves the
shared header state without any authorization entry. -/
theorem login_invalid_token_not_stored :
    login (AGiXTSDK.new none none false) 200 "\x7b\"token\":\"a\\nb\"\x7d"
        (some (.obj [("token", .str "a\nb")]))
      = .ok (AGiXTSDK.new none none false, some "a\nb") ∧
    getHeader (AGiXTSDK.new none none false).headers "authorization" = none :=
  ⟨rfl, rfl⟩

/-- Claim C6 (amended): on a login response with a success status whose
body carries a string `token` field, provided the token is a valid HTTP
header value, the call replaces the shared authorization header with the
token and returns it; every subsequent call snapshots these headers, so it
carries the token without the caller re-supplying it.  The validity
proviso is forced by the counterexample (the behaviour without it is
claim C10's). -/
theorem login_success_installs_valid_token
    (sdk : AGiXTSDK) (status : Nat) (body : String) (json : Json) (token : String)
    (hs : isSuccessStatus status = true)
    (htok : (json.getField "token").bind Json.asStr = some token)
    (hval : isValidHeaderValue token = true) :
    login sdk status body (some json) =
      .ok ({ sdk with headers := insertHeader sdk.headers "authorization" token },
           some token) ∧
    getHeader (insertHeader sdk.headers "authorization" token) "authorization"
      = some token := by
  constructor
  · unfold login
    cases hv : sdk.verbose with
    | false =>
      simp [parse_response, hs, htok, hval]
      rfl
    | true => simp [parse_response, hs, htok, hval]
  · exact getHeader_insertHeader sdk.headers "authorization" token

/-- Witness for the amended C6 with token `tok` on a fresh client. -/
theorem login_success_installs_valid_token_witness :
    login (AGiXTSDK.new none none false) 200 "\x7b\"token\":\"tok\"\x7d"
        (some (.obj [("token", .str "tok")]))
      = .ok ({ AGiXTSDK.new none none false with
               headers := insertHeader (AGiXTSDK.new none none false).headers
                 "authorization" "tok" }, some "tok") ∧
    getHeader (insertHeader (AGiXTSDK.new none none false).headers
      "authorization" "tok") "authorization" = some "tok" :=
  login_success_installs_valid_token (AGiXTSDK.new none none false) 200
    "\x7b\"token\":\"tok\"\x7d" (.obj [("token", .str "tok")]) "tok"
    (by decide) rfl (by decide)

/-- Reduction of `login_magic_link` on a quiet client once the `detail`
string is known. -/
theorem login_magic_link_reduce
    (sdk : AGiXTSDK) (status : Nat) (body : String) (json : Json) (detail : String)
    (hv : sdk.verbose = false)
    (hd : (json.getField "detail").bind Json.asStr = some detail) :
    login_magic_link sdk status body (some json) =
      if occursB "?token=".toList detail.toList then
        (let token := String.mk (((splitList "token=".toList detail.toList).get? 1).getD []);
         .ok ((if isValidHeaderValue token then
                 { sdk with headers := insertHeader sdk.headers "authorization" token }
               else sdk), some token))
      else .ok (sdk, none) := by
  have hred : login_magic_link sdk status body (some json) =
      (match (json.getField "detail").bind Json.asStr with
       | some detail =>
         if occursB "?token=".toList detail.toList then
           let token := String.mk (((splitList "token=".toList detail.toList).get? 1).getD [])
           pure ((if isValidHeaderValue token then
                    { sdk with headers := insertHeader sdk.headers "authorization" token }
                  else sdk), some token)
         else pure (sdk, none)
       | none => pure (sdk, none)) := by
    unfold login_magic_link
    cases h : sdk.verbose with
    | false => rfl
    | true =>
      rw [h] at hv
      exact Bool.noConfusion hv
  rw [hred, hd]
  rfl

/-- Claim C8: the magic-link login extracts the token by string search on
the literal `token=` — the returned (and, when header-valid, stored) token
is the segment of the `detail` string after the first occurrence of
`token=`, cut at the next occurrence if any; when `detail` lacks
`?token=`, the call returns the absent result.  `magicTokenSpec` states
this search contract independently of the implementation's `split`. -/
theorem magic_link_token_by_substring_search
    (sdk : AGiXTSDK) (status : Nat) (body : String) (json : Json) (detail : String)
    (hv : sdk.verbose = false)
    (hd : (json.getField "detail").bind Json.asStr = some detail) :
    login_magic_link sdk status body (some json) =
      .ok (match magicTokenSpec detail.toList with
           | none => (sdk, none)
           | some tl =>
             (if isValidHeaderValue (String.mk tl) then
                { sdk with headers := insertHeader sdk.headers "authorization" (String.mk tl) }
              else sdk,
              some (String.mk tl))) := by
  rw [login_magic_link_reduce sdk status body json detail hv hd]
  unfold magicTokenSpec
  by_cases hocc : occursB "?token=".toList detail.toList = true
  · have hocc' : occursB ('?' :: "token=".toList) detail.toList = true := by
      have he : "?token=".toList = '?' :: "token=".toList := rfl
      rw [he] at hocc
      exact hocc
    have occT : occursB "token=".toList detail.toList = true :=
      occursB_of_occursB_cons '?' "token=".toList detail.toList hocc'
    have hsome := splitOnce_isSome_of_occursB "token=".toList (by decide)
      detail.toList occT
    obtain ⟨p, hso⟩ := Option.isSome_iff_exists.mp hsome
    obtain ⟨a, bb⟩ := p
    have hsplit : splitList "token=".toList detail.toList
        = a :: splitList "token=".toList bb := by
      rw [splitList_eq_splitOnce, hso]
    simp only [if_pos hocc, hso, hsplit]
    cases hso2 : splitOnce "token=".toList bb with
    | none =>
      have hbb : splitList "token=".toList bb = [bb] := by
        rw [splitList_eq_splitOnce, hso2]
      rw [hbb]
      rfl
    | some p2 =>
      obtain ⟨a2, b2⟩ := p2
      have hbb : splitList "token=".toList bb = a2 :: splitList "token=".toList b2 := by
        rw [splitList_eq_splitOnce, hso2]
      rw [hbb]
      rfl
  · simp only [if_neg hocc]

/-- Witness for C8: the detail `see ?token=tok123` yields token `tok123`,
which is installed in the headers and returned. -/
theorem magic_link_token_by_substring_search_witness :
    login_magic_link (AGiXTSDK.new none none false) 200
        "\x7b\"detail\":\"see ?token=tok123\"\x7d"
        (some (.obj [("detail", .str "see ?token=tok123")]))
      = .ok ({ AGiXTSDK.new none none false with
               headers := insertHeader (AGiXTSDK.new none none false).headers
                 "authorization" "tok123" }, some "tok123") := by
  have h := magic_link_token_by_substring_search (AGiXTSDK.new none none false)
    200 "\x7b\"detail\":\"see ?token=tok123\"\x7d"
    (.obj [("detail", .str "see ?token=tok123")]) "see ?token=tok123" rfl rfl
  rw [h]
  rfl

/-- Claim C2 fails as stated: the credential `BEARER x` — a case variant
of the `Bearer ` prefix — is stored entirely unchanged, the prefix is not
stripped. -/
theorem bearer_uppercase_not_stripped :
    getHeader (AGiXTSDK.new none (some "BEARER x") false).headers "authorization"
      = some "BEARER x" ∧ ("BEARER x" : String) ≠ "x" := by
  constructor
  · rfl
  · decide

/-- Claim C2 (amended): the construction removes every occurrence of the
two exact substrings `Bearer ` and `bearer ` from the credential (not only
a prefix, not only once, and no other letter-casing such as `BEARER `); in
particular a credential `Bearer t` or `bearer t` whose remainder `t`
contains neither substring is stored as exactly `t`. -/
theorem bearer_replace_removes_exact_occurrences
    (rest : String) (b : Option String) (v : Bool)
    (hB : occursB "Bearer ".toList rest.toList = false)
    (hb : occursB "bearer ".toList rest.toList = false)
    (hval : isValidHeaderValue rest = true) :
    getHeader (AGiXTSDK.new b (some ("Bearer " ++ rest)) v).headers "authorization"
      = some rest ∧
    getHeader (AGiXTSDK.new b (some ("bearer " ++ rest)) v).headers "authorization"
      = some rest := by
  have happ : ∀ (s t : String), (s ++ t).toList = s.toList ++ t.toList :=
    fun s t => String.data_append s t
  have norm1 : normalizeApiKey ("Bearer " ++ rest) = rest := by
    unfold normalizeApiKey
    rw [happ, removeAll_self_append (by decide) rest.toList,
      removeAll_of_not_occursB hB, removeAll_of_not_occursB hb]
    rfl
  have norm2 : normalizeApiKey ("bearer " ++ rest) = rest := by
    unfold normalizeApiKey
    rw [happ, removeAll_of_not_occursB (occursB_Bearer_after_lower rest.toList hB),
      removeAll_self_append (by decide) rest.toList, removeAll_of_not_occursB hb]
    rfl
  have hheaders : ∀ (key : String), normalizeApiKey key = rest →
      (AGiXTSDK.new b (some key) v).headers
        = insertHeader (insertHeader [] "content-type" "application/json")
            "authorization" rest := by
    intro key hk
    simp [AGiXTSDK.new, hk, hval]
  constructor
  · rw [hheaders _ norm1]
    exact getHeader_insertHeader _ "authorization" rest
  · rw [hheaders _ norm2]
    exact getHeader_insertHeader _ "authorization" rest

/-- Witness for the amended C2 with remainder `tok` in both casings. -/
theorem bearer_replace_removes_exact_occurrences_witness :
    getHeader (AGiXTSDK.new none (some ("Bearer " ++ "tok")) false).headers
      "authorization" = some "tok" ∧
    getHeader (AGiXTSDK.new none (some ("bearer " ++ "tok")) false).headers
      "authorization" = some "tok" :=
  bearer_replace_removes_exact_occurrences "tok" none false
    (by decide) (by decide) (by decide)

/-- Claim C10: a credential that is not a valid header value is silently
skipped at construction — the client is still built, with no authorization
header stored — and a login whose issued token is not a valid header value
still returns the token as a success value while leaving the header state
untouched; no error is reported in either case. -/
theorem invalid_header_values_silently_skipped
    (b : Option String) (v : Bool) (key : String)
    (hkey : isValidHeaderValue key = false) :
    getHeader (AGiXTSDK.new b (some key) v).headers "authorization" = none ∧
    (∀ (sdk : AGiXTSDK) (status : Nat) (body : String) (json : Json) (token : String),
      sdk.verbose = false → isSuccessStatus status = true →
      (json.getField "token").bind Json.asStr = some token →
      isValidHeaderValue token = false →
      login sdk status body (some json) = .ok (sdk, some token)) := by
  constructor
  · have hnorm := isValidHeaderValue_normalizeApiKey key hkey
    have hh : (AGiXTSDK.new b (some key) v).headers
        = insertHeader [] "content-type" "application/json" := by
      simp [AGiXTSDK.new, hnorm]
    rw [hh]
    rfl
  · intro sdk status body json token hv hs htok hvalf
    unfold login
    cases h : sdk.verbose with
    | false =>
      simp [parse_response, hs, htok, hvalf]
      rfl
    | true =>
      rw [h] at hv
      exact Bool.noConfusion hv

/-- Witness for C10 with the invalid credential and token `a\nb`. -/
theorem invalid_header_values_silently_skipped_witness :
    getHeader (AGiXTSDK.new none (some "a\nb") false).headers "authorization" = none ∧
    login (AGiXTSDK.new none none false) 200 "\x7b\"token\":\"a\\nb\"\x7d"
        (some (.obj [("token", .str "a\nb")]))
      = .ok (AGiXTSDK.new none none false, some "a\nb") := by
  have h := invalid_header_values_silently_skipped none false "a\nb" (by decide)
  exact ⟨h.1, h.2 (AGiXTSDK.new none none false) 200 "\x7b\"token\":\"a\\nb\"\x7d"
    (.obj [("token", .str "a\nb")]) "a\nb" rfl (by decide) rfl (by decide)⟩
